import Mathlib

/-!
# Verification of CoCoNet coverage windowing, pair sampling and graph building

Shallow embedding of the CoCoNet repository (`tools.py`, `coconet/coconet.py`)
over exact rational arithmetic.  Coverage tracks are `List (List ℚ)` matrices
(samples × positions); numpy float operations are modelled exactly over `ℚ`.
-/

namespace CoCoNet

/-- Python slicing `x[::s]` for a step `s ≥ 1`: elements at indices
`0, s, 2s, …`; there are `⌈|x|/s⌉ = (|x| + s - 1) / s` of them. -/
def decimate (x : List ℚ) (s : ℕ) : List ℚ :=
  (List.range ((x.length + s - 1) / s)).map (fun k => x.getD (k * s) 0)

/-- `np.convolve(a, v, mode="valid")`: the full discrete convolution restricted
to the positions where the shorter input completely overlaps the longer one.
numpy swaps the arguments so that output length is
`max(|a|,|v|) - min(|a|,|v|) + 1` in every case, including `|a| < |v|`. -/
def convolveValid (a v : List ℚ) : List ℚ :=
  if v.length ≤ a.length then
    (List.range (a.length - v.length + 1)).map (fun j =>
      ((List.range v.length).map
        (fun i => a.getD (j + i) 0 * v.getD (v.length - 1 - i) 0)).sum)
  else
    (List.range (v.length - a.length + 1)).map (fun j =>
      ((List.range a.length).map
        (fun i => v.getD (j + i) 0 * a.getD (a.length - 1 - i) 0)).sum)

/-- `tools.avg_window(x, window_size, window_step)`:
`np.convolve(x, np.ones(window_size)/window_size, mode="valid")[::window_step]`. -/
def avg_window (x : List ℚ) (wsize wstep : ℕ) : List ℚ :=
  decimate (convolveValid x (List.replicate wsize (1 / (wsize : ℚ)))) wstep

/-- `np.apply_along_axis(lambda x: avg_window(x, wsize, wstep), 1, mat)`:
apply the windowing to every row of a (samples × positions) matrix. -/
def windowRows (mat : List (List ℚ)) (wsize wstep : ℕ) : List (List ℚ) :=
  mat.map (fun row => avg_window row wsize wstep)

lemma length_decimate (x : List ℚ) (s : ℕ) :
    (decimate x s).length = (x.length + s - 1) / s := by
  simp [decimate]

lemma length_convolveValid_of_le (a v : List ℚ) (h : v.length ≤ a.length) :
    (convolveValid a v).length = a.length - v.length + 1 := by
  simp only [convolveValid, if_pos h, List.length_map, List.length_range]

lemma length_convolveValid_of_gt (a v : List ℚ) (h : a.length < v.length) :
    (convolveValid a v).length = v.length - a.length + 1 := by
  simp only [convolveValid, if_neg (by omega : ¬ v.length ≤ a.length),
    List.length_map, List.length_range]

lemma length_avg_window (x : List ℚ) (w s : ℕ) (hs : 0 < s) (hL : w ≤ x.length) :
    (avg_window x w s).length = (x.length - w + 1 + (s - 1)) / s := by
  rw [avg_window, length_decimate,
    length_convolveValid_of_le _ _ (by simpa using hL)]
  simp only [List.length_replicate]
  congr 1
  omega

lemma length_avg_window_short (x : List ℚ) (w s : ℕ) (hs : 0 < s) (hL : x.length < w) :
    (avg_window x w s).length = (w - x.length + 1 + (s - 1)) / s := by
  rw [avg_window, length_decimate,
    length_convolveValid_of_gt _ _ (by simpa using hL)]
  simp only [List.length_replicate]
  congr 1
  omega

/-- C1: for a coverage slice of shape (samples, L) with L ≥ wsize, the
windowing transform returns shape (samples, ⌈(L − wsize + 1)/wstep⌉); the
output length depends only on L, not on the particular fragment. -/
theorem windowRows_shape (mat : List (List ℚ)) (L w s : ℕ) (hs : 0 < s)
    (hL : w ≤ L) (hrows : ∀ r ∈ mat, r.length = L) :
    (windowRows mat w s).length = mat.length ∧
      ∀ r ∈ windowRows mat w s, r.length = (L - w + 1 + (s - 1)) / s := by
  constructor
  · simp [windowRows]
  · intro r hr
    rcases List.mem_map.mp hr with ⟨row, hrow, rfl⟩
    rw [length_avg_window row w s hs (by rw [hrows row hrow]; exact hL), hrows row hrow]

/-- C1 witness: a concrete 2×4 slice with wsize 2, wstep 2 gives shape 2×2. -/
theorem windowRows_shape_witness :
    (2 ≤ 4 ∧ ∀ r ∈ [[(1:ℚ),2,3,4], [5,6,7,8]], r.length = 4) ∧
      ((windowRows [[(1:ℚ),2,3,4], [5,6,7,8]] 2 2).length = 2 ∧
        ∀ r ∈ windowRows [[(1:ℚ),2,3,4], [5,6,7,8]] 2 2,
          r.length = (4 - 2 + 1 + (2 - 1)) / 2) :=
  ⟨⟨by omega, by decide⟩,
    windowRows_shape [[(1:ℚ),2,3,4], [5,6,7,8]] 4 2 2 (by omega) (by omega) (by decide)⟩

/-- C2 counterexample: `avg_window` on an input shorter than the window is NOT
empty.  `np.convolve(x, kernel, mode="valid")` swaps its arguments when the
kernel is longer, giving `wsize - length + 1` values: at `x = [5]`, `wsize = 2`,
`wstep = 1` the output has 2 elements, not 0. -/
theorem avg_window_short_cex :
    ([(5:ℚ)].length < 2) ∧ avg_window [(5:ℚ)] 2 1 ≠ [] := by
  refine ⟨by decide, ?_⟩
  intro hnil
  have h := length_avg_window_short [(5:ℚ)] 2 1 (by omega) (by decide)
  rw [hnil] at h
  simp at h

/-- C2 (amended): for an input of length `0 < L < wsize`, `avg_window` returns
a NON-empty result of `⌈(wsize − L + 1)/wstep⌉` elements (numpy valid-mode
convolution swaps its arguments when the kernel is longer than the signal). -/
theorem avg_window_short_input (x : List ℚ) (w s : ℕ) (hs : 0 < s)
    (_hx : 0 < x.length) (hL : x.length < w) :
    (avg_window x w s).length = (w - x.length + 1 + (s - 1)) / s ∧
      avg_window x w s ≠ [] := by
  have h := length_avg_window_short x w s hs hL
  refine ⟨h, ?_⟩
  intro hnil
  rw [hnil] at h
  simp only [List.length_nil] at h
  have h1 : 1 ≤ (w - x.length + 1 + (s - 1)) / s :=
    (Nat.one_le_div_iff hs).mpr (by omega)
  omega

/-- C2 witness: the amended statement at `x = [5]`, `wsize = 2`, `wstep = 1`. -/
theorem avg_window_short_input_witness :
    (0 < [(5:ℚ)].length ∧ [(5:ℚ)].length < 2) ∧
      ((avg_window [(5:ℚ)] 2 1).length = (2 - [(5:ℚ)].length + 1 + (1 - 1)) / 1 ∧
        avg_window [(5:ℚ)] 2 1 ≠ []) :=
  ⟨⟨by decide, by decide⟩, avg_window_short_input [(5:ℚ)] 2 1 (by omega) (by decide) (by decide)⟩

lemma getD_range_map (f : ℕ → ℚ) (n j : ℕ) (h : j < n) :
    ((List.range n).map f).getD j 0 = f j := by
  rw [List.getD_eq_getElem _ _ (by simpa using h)]
  simp

lemma getD_replicate_of_lt (L m : ℕ) (c : ℚ) (h : m < L) :
    (List.replicate L c).getD m 0 = c := by
  simp [List.getD, List.getElem?_replicate, h]

lemma mem_decimate (x : List ℚ) (s : ℕ) (y : ℚ) (hs : 0 < s) (hy : y ∈ decimate x s) :
    ∃ j, j < x.length ∧ y = x.getD j 0 := by
  rcases List.mem_map.mp hy with ⟨k, hk, rfl⟩
  have hk1 : k + 1 ≤ (x.length + s - 1) / s := List.mem_range.mp hk
  have hk2 : (k + 1) * s ≤ x.length + s - 1 := (Nat.le_div_iff_mul_le hs).mp hk1
  have hk3 : k * s + s ≤ x.length + s - 1 := by rwa [Nat.succ_mul] at hk2
  exact ⟨k * s, by omega, rfl⟩

/-- C4: with a constant input of length L ≥ wsize and constant value c, every
element of the windowing output equals c exactly (over exact arithmetic). -/
theorem avg_window_const (L w s : ℕ) (c : ℚ) (hw : 0 < w) (hs : 0 < s)
    (hL : w ≤ L) : ∀ y ∈ avg_window (List.replicate L c) w s, y = c := by
  intro y hy
  rcases mem_decimate _ _ _ hs hy with ⟨j, hj, rfl⟩
  rw [length_convolveValid_of_le _ _ (by simpa using hL)] at hj
  simp only [List.length_replicate] at hj
  unfold convolveValid
  simp only [List.length_replicate, if_pos hL]
  rw [getD_range_map _ _ _ (by omega)]
  have hmap : (List.range w).map (fun i => (List.replicate L c).getD (j + i) 0 *
      (List.replicate w (1/(w:ℚ))).getD (w - 1 - i) 0) =
      List.replicate w (c * (1/(w:ℚ))) := by
    rw [List.eq_replicate_iff]
    refine ⟨by simp, ?_⟩
    intro b hb
    rcases List.mem_map.mp hb with ⟨i, hi, rfl⟩
    have hi' : i < w := List.mem_range.mp hi
    rw [getD_replicate_of_lt L (j + i) c (by omega),
      getD_replicate_of_lt w (w - 1 - i) _ (by omega)]
  rw [hmap, List.sum_replicate, nsmul_eq_mul]
  have hw' : (w:ℚ) ≠ 0 := Nat.cast_ne_zero.mpr (by omega)
  field_simp

/-- C4 witness: at L = 3, w = 2, s = 1, c = 7, the first output element is 7. -/
theorem avg_window_const_witness :
    (0 < 2 ∧ 0 < 1 ∧ 2 ≤ 3) ∧
      (avg_window (List.replicate 3 (7:ℚ)) 2 1).getD 0 0 = 7 := by
  have hlen : 0 < (avg_window (List.replicate 3 (7:ℚ)) 2 1).length := by
    rw [length_avg_window _ _ _ (by omega) (by simp)]
    simp
  refine ⟨⟨by omega, by omega, by omega⟩, ?_⟩
  have hmem : (avg_window (List.replicate 3 (7:ℚ)) 2 1).getD 0 0 ∈
      avg_window (List.replicate 3 (7:ℚ)) 2 1 := by
    rw [List.getD_eq_getElem _ _ hlen]
    exact List.getElem_mem hlen
  exact avg_window_const 3 2 1 7 (by omega) (by omega) (by omega) _ hmem

/-! ## `tools.get_coverage`

`get_coverage(pairs, coverage_h5, window_size, window_step)` receives a
structured array of fragment pairs (fields `sp`, `start`, `end`), flattens the
two columns, processes the fragments sorted by contig id while memoizing the
windowed coverage of each `(contig, start)` region in the dict `seen`, and
scatters each result back to the fragment's original position. -/

/-- One fragment record of the `pairs` structured array: contig id `sp` and
half-open coordinates `[start, stop)` (`end` in the source). -/
structure Frag where
  sp : ℕ
  start : ℕ
  stop : ℕ
deriving DecidableEq

instance : Inhabited Frag := ⟨⟨0, 0, 0⟩⟩

/-- Column slice `mat[:, a:b]` of a (samples × positions) matrix. -/
def sliceCols (mat : List (List ℚ)) (a b : ℕ) : List (List ℚ) :=
  mat.map (fun row => (row.drop a).take (b - a))

/-- `np.apply_along_axis(lambda x: avg_window(x, wsize, wstep), 1,
coverage_data[species][:, start:end])`. -/
def windowFrag (cov : ℕ → List (List ℚ)) (wsize wstep : ℕ) (f : Frag) :
    List (List ℚ) :=
  windowRows (sliceCols (cov f.sp) f.start f.stop) wsize wstep

/-- Insert an index into a list of indices sorted by `key` (helper for the
embedding of `np.argsort`). -/
def insertByKey (key : ℕ → ℕ) (i : ℕ) : List ℕ → List ℕ
  | [] => [i]
  | j :: t => if key i < key j then i :: j :: t else j :: insertByKey key i t

/-- `np.argsort` over index lists: some permutation ordered by `key`
(insertion sort; `get_coverage` only needs that it permutes the indices). -/
def sortByKey (key : ℕ → ℕ) (l : List ℕ) : List ℕ :=
  l.foldr (insertByKey key) []

/-- `np.zeros([n_samples, conv_shape])`. -/
def zerosMat (nSamples nCols : ℕ) : List (List ℚ) :=
  List.replicate nSamples (List.replicate nCols 0)

/-- One iteration of the loop in `get_coverage`: fragment `i` of the flattened
pair array is looked up in the memo dict `seen` keyed by `(species, start)`;
on a miss its coverage slice is windowed and memoized; the result is written
at position `i` of the output array. -/
def covStep (flat : List Frag) (cov : ℕ → List (List ℚ)) (wsize wstep : ℕ)
    (acc : List (List (List ℚ)) × List ((ℕ × ℕ) × List (List ℚ))) (i : ℕ) :
    List (List (List ℚ)) × List ((ℕ × ℕ) × List (List ℚ)) :=
  let f := flat.getD i default
  match acc.2.lookup (f.sp, f.start) with
  | some v => (acc.1.set i v, acc.2)
  | none =>
    let v := windowFrag cov wsize wstep f
    (acc.1.set i v, ((f.sp, f.start), v) :: acc.2)

/-- `tools.get_coverage`: flatten the pair columns, window every fragment in
contig-sorted order with `(contig, start)` memoization (the dict `seen`,
created afresh inside each call), scatter the results to the original
positions and split back into the two columns. -/
def getCoverage (pairs : List (Frag × Frag)) (cov : ℕ → List (List ℚ))
    (wsize wstep : ℕ) : List (List (List ℚ)) × List (List (List ℚ)) :=
  let n := pairs.length
  let flat := pairs.map Prod.fst ++ pairs.map Prod.snd
  -- frag_len = pairs['end'][0,0] - pairs['start'][0,0]
  let fragLen := (pairs.getD 0 default).1.stop - (pairs.getD 0 default).1.start
  -- n_samples: row count of the first entry of the coverage dict, whose keys
  -- are the sorted distinct contig ids (np.unique)
  let ctgs := (sortByKey id (flat.map Frag.sp)).dedup
  let nSamples := (cov (ctgs.headD 0)).length
  let convShape := (fragLen - wsize + 1 + (wstep - 1)) / wstep
  let sorted := sortByKey (fun i => (flat.getD i default).sp) (List.range (2 * n))
  let out := (sorted.foldl (covStep flat cov wsize wstep)
    (List.replicate (2 * n) (zerosMat nSamples convShape), [])).1
  (out.take n, out.drop n)

/-- Reference version of `get_coverage` with no memoization and no sorting:
every fragment's windowed coverage is recomputed independently, in input
order. -/
def getCoverageRef (pairs : List (Frag × Frag)) (cov : ℕ → List (List ℚ))
    (wsize wstep : ℕ) : List (List (List ℚ)) × List (List (List ℚ)) :=
  (pairs.map (fun p => windowFrag cov wsize wstep p.1),
   pairs.map (fun p => windowFrag cov wsize wstep p.2))

lemma insertByKey_perm (key : ℕ → ℕ) (i : ℕ) (l : List ℕ) :
    (insertByKey key i l).Perm (i :: l) := by
  induction l with
  | nil => simp [insertByKey]
  | cons j t ih =>
    by_cases h : key i < key j
    · simp [insertByKey, h]
    · simp only [insertByKey, if_neg h]
      exact (ih.cons j).trans (List.Perm.swap i j t)

lemma sortByKey_perm (key : ℕ → ℕ) (l : List ℕ) : (sortByKey key l).Perm l := by
  induction l with
  | nil => simp [sortByKey]
  | cons a t ih =>
    exact (insertByKey_perm key a (sortByKey key t)).trans (ih.cons a)

lemma getD_set_eq_of_lt {α : Type} (l : List α) (i : ℕ) (v d : α)
    (h : i < l.length) : (l.set i v).getD i d = v := by
  simp [List.getD, List.getElem?_set_self, h]

lemma getD_set_ne_idx {α : Type} (l : List α) (i j : ℕ) (v d : α)
    (h : i ≠ j) : (l.set i v).getD j d = l.getD j d := by
  simp [List.getD, List.getElem?_set_ne h]

/-- The windowed coverage of a fragment depends only on its contig, its start
and its LENGTH `stop - start` (the slice `[:, start:stop]` is `drop`/`take`). -/
lemma windowFrag_congr (cov : ℕ → List (List ℚ)) (w s : ℕ) (f g : Frag)
    (hsp : f.sp = g.sp) (hst : f.start = g.start)
    (hlen : f.stop - f.start = g.stop - g.start) :
    windowFrag cov w s f = windowFrag cov w s g := by
  unfold windowFrag sliceCols
  rw [hlen, hst, hsp]

lemma covStep_eq_hit (flat : List Frag) (cov : ℕ → List (List ℚ)) (w s : ℕ)
    (out : List (List (List ℚ))) (seen : List ((ℕ × ℕ) × List (List ℚ)))
    (i : ℕ) (v : List (List ℚ))
    (h : seen.lookup ((flat.getD i default).sp, (flat.getD i default).start) = some v) :
    covStep flat cov w s (out, seen) i = (out.set i v, seen) := by
  simp only [covStep]
  rw [h]

lemma covStep_eq_miss (flat : List Frag) (cov : ℕ → List (List ℚ)) (w s : ℕ)
    (out : List (List (List ℚ))) (seen : List ((ℕ × ℕ) × List (List ℚ))) (i : ℕ)
    (h : seen.lookup ((flat.getD i default).sp, (flat.getD i default).start) = none) :
    covStep flat cov w s (out, seen) i =
      (out.set i (windowFrag cov w s (flat.getD i default)),
       (((flat.getD i default).sp, (flat.getD i default).start),
         windowFrag cov w s (flat.getD i default)) :: seen) := by
  simp only [covStep]
  rw [h]

/-- Invariant of the scatter loop of `get_coverage`: provided all fragments
have length `fragLen` and the memo only holds correctly-windowed regions,
after the fold every processed position `j` holds the independently
recomputed windowed coverage of fragment `j`, memo hits notwithstanding. -/
lemma covStep_foldl_spec (flat : List Frag) (cov : ℕ → List (List ℚ))
    (w s fragLen : ℕ) (HL : ∀ f ∈ flat, f.stop - f.start = fragLen) :
    ∀ (idxs : List ℕ) (out : List (List (List ℚ)))
      (seen : List ((ℕ × ℕ) × List (List ℚ))),
    (∀ i ∈ idxs, i < flat.length) →
    out.length = flat.length →
    (∀ k v, seen.lookup k = some v →
      v = windowFrag cov w s ⟨k.1, k.2, k.2 + fragLen⟩) →
    (idxs.foldl (covStep flat cov w s) (out, seen)).1.length = flat.length ∧
      ∀ j, (idxs.foldl (covStep flat cov w s) (out, seen)).1.getD j [] =
        if j ∈ idxs then windowFrag cov w s (flat.getD j default)
        else out.getD j [] := by
  intro idxs
  induction idxs with
  | nil =>
    intro out seen _ hlen _
    exact ⟨hlen, by simp⟩
  | cons i is ih =>
    intro out seen hin hlen hseen
    have hi : i < flat.length := hin i (List.mem_cons_self i is)
    have hf : flat.getD i default ∈ flat := by
      rw [List.getD_eq_getElem _ _ hi]
      exact List.getElem_mem hi
    have hflen := HL _ hf
    have hnorm : windowFrag cov w s
        ⟨(flat.getD i default).sp, (flat.getD i default).start,
          (flat.getD i default).start + fragLen⟩ =
        windowFrag cov w s (flat.getD i default) := by
      refine windowFrag_congr cov w s _ _ rfl rfl ?_
      show (flat.getD i default).start + fragLen - (flat.getD i default).start =
        (flat.getD i default).stop - (flat.getD i default).start
      omega
    have hins : ∀ j, j ∈ (i :: is) ↔ (j ∈ is ∨ j = i) := by
      intro j
      simp [List.mem_cons, or_comm]
    rcases hcase : (seen.lookup ((flat.getD i default).sp, (flat.getD i default).start))
      with _ | v
    · -- memo miss: recompute and memoize
      rw [List.foldl_cons, covStep_eq_miss flat cov w s out seen i hcase]
      have hres := ih (out.set i (windowFrag cov w s (flat.getD i default)))
        ((((flat.getD i default).sp, (flat.getD i default).start),
          windowFrag cov w s (flat.getD i default)) :: seen)
        (fun j hj => hin j (List.mem_cons_of_mem i hj))
        (by rw [List.length_set]; exact hlen)
        ?_
      · refine ⟨hres.1, ?_⟩
        intro j
        rw [hres.2 j]
        by_cases hjs : j ∈ is
        · simp [hjs, List.mem_cons]
        · by_cases hji : j = i
          · subst hji
            rw [getD_set_eq_of_lt _ _ _ _ (by rw [hlen]; exact hi)]
            simp [hjs, List.mem_cons]
          · rw [getD_set_ne_idx _ _ _ _ _ (fun e => hji e.symm)]
            simp [hjs, List.mem_cons, hji]
      · intro k v hkv
        simp only [List.lookup] at hkv
        split at hkv
        · rename_i hbeq
          have hk : k = ((flat.getD i default).sp, (flat.getD i default).start) :=
            beq_iff_eq.mp hbeq
          have hv : v = windowFrag cov w s (flat.getD i default) :=
            (Option.some_injective _ hkv).symm
          subst hk
          rw [hv]
          exact hnorm.symm
        · exact hseen k v hkv
    · -- memo hit: the memoized value is exactly the recomputed one
      have hv : v = windowFrag cov w s (flat.getD i default) := by
        rw [hseen _ v hcase]
        exact hnorm
      rw [List.foldl_cons, covStep_eq_hit flat cov w s out seen i v hcase]
      have hres := ih (out.set i v) seen
        (fun j hj => hin j (List.mem_cons_of_mem i hj))
        (by rw [List.length_set]; exact hlen) hseen
      refine ⟨hres.1, ?_⟩
      intro j
      rw [hres.2 j]
      by_cases hjs : j ∈ is
      · simp [hjs, List.mem_cons]
      · by_cases hji : j = i
        · subst hji
          rw [getD_set_eq_of_lt _ _ _ _ (by rw [hlen]; exact hi), hv]
          simp [hjs, List.mem_cons]
        · rw [getD_set_ne_idx _ _ _ _ _ (fun e => hji e.symm)]
          simp [hjs, List.mem_cons, hji]

/-- When every fragment of the batch has the same length, `get_coverage`
(sorted traversal, `(contig, start)` memoization, scatter-back) agrees with
the memo-free reference that windows every fragment independently. -/
lemma getCoverage_eq_ref (pairs : List (Frag × Frag)) (cov : ℕ → List (List ℚ))
    (w s fragLen : ℕ)
    (HL : ∀ p ∈ pairs, p.1.stop - p.1.start = fragLen ∧
      p.2.stop - p.2.start = fragLen) :
    getCoverage pairs cov w s = getCoverageRef pairs cov w s := by
  have HLflat : ∀ f ∈ pairs.map Prod.fst ++ pairs.map Prod.snd,
      f.stop - f.start = fragLen := by
    intro f hf
    rcases List.mem_append.mp hf with h | h
    · rcases List.mem_map.mp h with ⟨p, hp, rfl⟩
      exact (HL p hp).1
    · rcases List.mem_map.mp h with ⟨p, hp, rfl⟩
      exact (HL p hp).2
  have hflatlen : (pairs.map Prod.fst ++ pairs.map Prod.snd).length =
      2 * pairs.length := by
    simp [two_mul]
  have main2 : ∀ OUT : List (List (List ℚ)),
      OUT.length = 2 * pairs.length →
      (∀ j (hj : j < OUT.length),
        OUT[j] = windowFrag cov w s
          ((pairs.map Prod.fst ++ pairs.map Prod.snd).getD j default)) →
      (OUT.take pairs.length, OUT.drop pairs.length) =
        getCoverageRef pairs cov w s := by
    intro OUT hOlen hOget
    simp only [getCoverageRef]
    refine Prod.ext ?_ ?_
    · show OUT.take pairs.length = pairs.map (fun p => windowFrag cov w s p.1)
      apply List.ext_getElem
      · rw [List.length_take, hOlen, List.length_map]
        omega
      · intro i h1 h2
        have hi : i < pairs.length := by simpa using h2
        rw [List.getElem_take]
        simp only [List.getElem_map]
        rw [hOget i (by omega)]
        congr 1
        rw [List.getD_eq_getElem?_getD, List.getElem?_append,
          if_pos (by simp [hi] : i < (pairs.map Prod.fst).length)]
        simp [List.getElem?_map, List.getElem?_eq_getElem hi]
    · show OUT.drop pairs.length = pairs.map (fun p => windowFrag cov w s p.2)
      apply List.ext_getElem
      · rw [List.length_drop, hOlen, List.length_map]
        omega
      · intro i h1 h2
        have hi : i < pairs.length := by simpa using h2
        rw [List.getElem_drop]
        simp only [List.getElem_map]
        rw [hOget (pairs.length + i) (by omega)]
        congr 1
        rw [List.getD_eq_getElem?_getD, List.getElem?_append,
          if_neg (by simp : ¬ pairs.length + i < (pairs.map Prod.fst).length)]
        simp [List.getElem?_map, List.getElem?_eq_getElem hi]
  have hin : ∀ i ∈ sortByKey
      (fun i => ((pairs.map Prod.fst ++ pairs.map Prod.snd).getD i default).sp)
      (List.range (2 * pairs.length)),
      i < (pairs.map Prod.fst ++ pairs.map Prod.snd).length := by
    intro i hi
    rw [hflatlen]
    exact List.mem_range.mp ((sortByKey_perm _ _).mem_iff.mp hi)
  have hspec := fun (z : List (List ℚ)) => covStep_foldl_spec
    (pairs.map Prod.fst ++ pairs.map Prod.snd) cov w s fragLen HLflat
    (sortByKey
      (fun i => ((pairs.map Prod.fst ++ pairs.map Prod.snd).getD i default).sp)
      (List.range (2 * pairs.length)))
    (List.replicate (2 * pairs.length) z) [] hin (by simp [two_mul])
    (by intro k v hkv; simp [List.lookup] at hkv)
  obtain ⟨hlen, hget⟩ := hspec (zerosMat
    (cov (((sortByKey id
      ((pairs.map Prod.fst ++ pairs.map Prod.snd).map Frag.sp)).dedup).headD 0)).length
    ((((pairs.getD 0 default).1.stop - (pairs.getD 0 default).1.start) - w + 1 +
      (s - 1)) / s))
  simp only [getCoverage]
  refine main2 _ (hlen.trans hflatlen) ?_
  intro j hj
  have hj2 : j < 2 * pairs.length := by
    rw [hlen, hflatlen] at hj
    exact hj
  have h3 := hget j
  rw [if_pos ((sortByKey_perm _ _).mem_iff.mpr (List.mem_range.mpr hj2))] at h3
  rw [List.getD_eq_getElem _ _ hj] at h3
  exact h3

/-- C3: for a batch whose fragments all have the same length `end - start`,
`get_coverage` with its `(contig, start)`-keyed memoization returns exactly
the pair of arrays of a reference version that recomputes the windowed
coverage of every fragment independently — memoization never changes the
result.  The memo dict `seen` is a local variable created afresh inside every
call (our embedding starts the fold from the empty memo, as the source does),
so no memoized value survives across batches. -/
theorem getCoverage_memo_eq_ref (pairs : List (Frag × Frag))
    (cov : ℕ → List (List ℚ)) (w s fragLen : ℕ)
    (HL : ∀ p ∈ pairs, p.1.stop - p.1.start = fragLen ∧
      p.2.stop - p.2.start = fragLen) :
    getCoverage pairs cov w s = getCoverageRef pairs cov w s :=
  getCoverage_eq_ref pairs cov w s fragLen HL

/-- C3 witness: a batch of two pairs in which region `(0, 0)` appears twice,
so the second occurrence is served from the memo. -/
theorem getCoverage_memo_eq_ref_witness :
    (∀ p ∈ [((⟨0,0,2⟩:Frag), (⟨1,0,2⟩:Frag)), (⟨0,0,2⟩, ⟨1,2,4⟩)],
      p.1.stop - p.1.start = 2 ∧ p.2.stop - p.2.start = 2) ∧
    getCoverage [((⟨0,0,2⟩:Frag), (⟨1,0,2⟩:Frag)), (⟨0,0,2⟩, ⟨1,2,4⟩)]
        (fun _ => [[1,2,3,4]]) 1 1 =
      getCoverageRef [((⟨0,0,2⟩:Frag), (⟨1,0,2⟩:Frag)), (⟨0,0,2⟩, ⟨1,2,4⟩)]
        (fun _ => [[1,2,3,4]]) 1 1 :=
  ⟨by decide, getCoverage_memo_eq_ref _ _ 1 1 2 (by decide)⟩

/-- C5: the two arrays returned by `get_coverage` are aligned with the input
pair order: row i of the first array is the windowed coverage of fragment A
of pair i, and row i of the second array is that of fragment B of pair i,
even though fragments are processed internally in contig-sorted order. -/
theorem getCoverage_row_alignment (pairs : List (Frag × Frag))
    (cov : ℕ → List (List ℚ)) (w s fragLen : ℕ)
    (HL : ∀ p ∈ pairs, p.1.stop - p.1.start = fragLen ∧
      p.2.stop - p.2.start = fragLen)
    (i : ℕ) (hi : i < pairs.length) :
    (getCoverage pairs cov w s).1.getD i [] =
      windowFrag cov w s ((pairs.getD i default).1) ∧
    (getCoverage pairs cov w s).2.getD i [] =
      windowFrag cov w s ((pairs.getD i default).2) := by
  rw [getCoverage_eq_ref pairs cov w s fragLen HL]
  simp only [getCoverageRef]
  constructor <;>
  · rw [List.getD_eq_getElem?_getD, List.getElem?_map, List.getElem?_eq_getElem hi,
      List.getD_eq_getElem _ _ hi]
    simp

/-- C5 witness: a single pair, queried at row 0. -/
theorem getCoverage_row_alignment_witness :
    ((∀ p ∈ [((⟨2,0,1⟩:Frag), (⟨3,1,2⟩:Frag))],
        p.1.stop - p.1.start = 1 ∧ p.2.stop - p.2.start = 1) ∧
      0 < [((⟨2,0,1⟩:Frag), (⟨3,1,2⟩:Frag))].length) ∧
    ((getCoverage [((⟨2,0,1⟩:Frag), (⟨3,1,2⟩:Frag))]
        (fun _ => [[5,6]]) 1 1).1.getD 0 [] =
      windowFrag (fun _ => [[5,6]]) 1 1
        (([((⟨2,0,1⟩:Frag), (⟨3,1,2⟩:Frag))].getD 0 default).1) ∧
    (getCoverage [((⟨2,0,1⟩:Frag), (⟨3,1,2⟩:Frag))]
        (fun _ => [[5,6]]) 1 1).2.getD 0 [] =
      windowFrag (fun _ => [[5,6]]) 1 1
        (([((⟨2,0,1⟩:Frag), (⟨3,1,2⟩:Frag))].getD 0 default).2)) :=
  ⟨⟨by decide, by decide⟩,
    getCoverage_row_alignment _ _ 1 1 1 (by decide) 0 (by decide)⟩

/-! ## `coconet.coconet.make_train_test` (train/test contig split) -/

/-- Python `int()` applied to a real number: truncation toward zero. -/
def pyInt (q : ℚ) : ℤ :=
  if 0 ≤ q then ⌊q⌋ else -⌊-q⌋

/-- The contig index split of `make_train_test` (`coconet/coconet.py`):
`n_ctg_for_test = max(2, int(test_ratio * n_ctg))`;
`test = np.random.choice(n_ctg, n_ctg_for_test)` (with replacement, modelled
by an arbitrary draw function); `train = np.setdiff1d(range(n_ctg), test)`
(the sorted values of `range(n_ctg)` not drawn for test). -/
def trainTestSplit (nCtg : ℕ) (testRatio : ℚ) (draws : ℕ → ℕ) :
    List ℕ × List ℕ :=
  let nTest := max 2 (pyInt (testRatio * nCtg)).toNat
  let testIdx := (List.range nTest).map draws
  let trainIdx := (List.range nCtg).filter (fun i => decide (i ∉ testIdx))
  (trainIdx, testIdx)

/-- C10: the train indices are exactly the members of `range(n_ctg)` not
chosen for test — so no contig is in both sets — and the test selection draws
at least `max(2, ⌊test_ratio * n_ctg⌋)` picks (with replacement). -/
theorem trainTestSplit_spec (nCtg : ℕ) (testRatio : ℚ) (draws : ℕ → ℕ)
    (hr : 0 ≤ testRatio) :
    (∀ i, i ∈ (trainTestSplit nCtg testRatio draws).1 ↔
      (i < nCtg ∧ i ∉ (trainTestSplit nCtg testRatio draws).2)) ∧
    (∀ i, i ∈ (trainTestSplit nCtg testRatio draws).1 →
      i ∉ (trainTestSplit nCtg testRatio draws).2) ∧
    max 2 (Int.toNat ⌊testRatio * (nCtg:ℚ)⌋) ≤
      (trainTestSplit nCtg testRatio draws).2.length := by
  have htrunc : pyInt (testRatio * nCtg) = ⌊testRatio * (nCtg:ℚ)⌋ := by
    unfold pyInt
    rw [if_pos (mul_nonneg hr (by positivity))]
  refine ⟨?_, ?_, ?_⟩
  · intro i
    simp [trainTestSplit, List.mem_filter, List.mem_range]
  · intro i hi
    rw [trainTestSplit] at hi
    simp only [List.mem_filter, decide_eq_true_eq] at hi
    exact hi.2
  · simp [trainTestSplit, htrunc]

/-- C10 witness: `n_ctg = 4`, `test_ratio = 1/2`, all draws pick contig 0. -/
theorem trainTestSplit_spec_witness :
    (0:ℚ) ≤ 1/2 ∧
    ((∀ i, i ∈ (trainTestSplit 4 (1/2) (fun _ => 0)).1 ↔
      (i < 4 ∧ i ∉ (trainTestSplit 4 (1/2) (fun _ => 0)).2)) ∧
    (∀ i, i ∈ (trainTestSplit 4 (1/2) (fun _ => 0)).1 →
      i ∉ (trainTestSplit 4 (1/2) (fun _ => 0)).2) ∧
    max 2 (Int.toNat ⌊(1/2:ℚ) * (4:ℕ)⌋) ≤
      (trainTestSplit 4 (1/2) (fun _ => 0)).2.length) :=
  ⟨by norm_num, trainTestSplit_spec 4 (1/2) (fun _ => 0) (by norm_num)⟩

/-! ## Fragment pair sampler and neighbor graph builder

The modules `coconet.fragmentation` (`make_pairs`) and `coconet.clustering`
(`make_pregraph`, `iterate_clustering`) are not part of the sources; only
their callers in `coconet/coconet.py` are.  They are modelled from the spec
(§4.2, §4.3). -/

/-- Modelled from the spec: the error raised by the Fragment Pair Sampler
(`InsufficientDataError`), whose implementation in `coconet.fragmentation`
is not under `src/`. -/
inductive SamplerError where
  | insufficientData
deriving DecidableEq

/-- A contig as the sampler sees it: an identifier and a length. -/
abbrev Contig := ℕ × ℕ

/-- Modelled from the spec: drawing one fragment from a contig — fragments
start at `fragment_step` spacing, a contig of length L yields
`(L - fragment_length)/fragment_step + 1` of them (§3); the draw `p` picks
one of those starts. -/
def sampleFrag (c : Contig) (step fragLen : ℕ) (p : ℕ) : Frag :=
  let nPos := (c.2 - fragLen) / step + 1
  let start := (p % nPos) * step
  ⟨c.1, start, start + fragLen⟩

/-- Modelled from the spec: one positive pair — two fragments of the single
contig drawn by `r.1`, at the positions drawn by `r.2.1` and `r.2.2`. -/
def posPairOf (contigs : List Contig) (step fragLen : ℕ) (r : ℕ × ℕ × ℕ) :
    Frag × Frag :=
  (sampleFrag (contigs.getD (r.1 % contigs.length) (0, 0)) step fragLen r.2.1,
   sampleFrag (contigs.getD (r.1 % contigs.length) (0, 0)) step fragLen r.2.2)

/-- Modelled from the spec: one negative pair — fragments of two DISTINCT
drawn contigs: the second index is the first offset by `1 + r.2.1 mod (n-1)`
modulo `n`, so it never equals the first. -/
def negPairOf (contigs : List Contig) (step fragLen : ℕ)
    (r : ℕ × ℕ × ℕ × ℕ) : Frag × Frag :=
  (sampleFrag (contigs.getD (r.1 % contigs.length) (0, 0)) step fragLen r.2.2.1,
   sampleFrag (contigs.getD
       ((r.1 % contigs.length + 1 + r.2.1 % (contigs.length - 1)) %
         contigs.length) (0, 0))
     step fragLen r.2.2.2)

/-- Modelled from the spec: training mode of `make_pairs`
(`coconet.fragmentation`, not under `src/`): `n_examples/2` positive pairs
(two fragments of one randomly drawn contig) followed by `n_examples/2`
negative pairs (fragments of two distinct randomly drawn contigs).
Randomness is an injected draw function. -/
def makePairs (contigs : List Contig) (step fragLen nExamples : ℕ)
    (rngPos : ℕ → ℕ × ℕ × ℕ) (rngNeg : ℕ → ℕ × ℕ × ℕ × ℕ) :
    List (Frag × Frag) :=
  (List.range (nExamples / 2)).map
    (fun j => posPairOf contigs step fragLen (rngPos j)) ++
  (List.range (nExamples / 2)).map
    (fun j => negPairOf contigs step fragLen (rngNeg j))

/-- Modelled from the spec: the contigs eligible for sampling are those at
least `fragment_length` long ("no contig shorter than `fragment_length` is
sampled"). -/
def eligibleContigs (contigs : List Contig) (fragLen : ℕ) : List Contig :=
  contigs.filter (fun c => decide (fragLen ≤ c.2))

/-- Modelled from the spec: the feasible pair count after deduplication —
distinct ordered pairs of distinct fragments over the eligible contigs. -/
def feasiblePairs (contigs : List Contig) (step fragLen : ℕ) : ℕ :=
  let total := ((eligibleContigs contigs fragLen).map
    (fun c => (c.2 - fragLen) / step + 1)).sum
  total * total

/-- Modelled from the spec: `make_pairs` guarded by its failure conditions —
`InsufficientDataError` when fewer than 2 eligible contigs exist or when the
requested sample count exceeds the feasible pair count after deduplication. -/
def makePairsChecked (contigs : List Contig) (step fragLen nExamples : ℕ)
    (rngPos : ℕ → ℕ × ℕ × ℕ) (rngNeg : ℕ → ℕ × ℕ × ℕ × ℕ) :
    Except SamplerError (List (Frag × Frag)) :=
  let eligible := eligibleContigs contigs fragLen
  if eligible.length < 2 then .error .insufficientData
  else if feasiblePairs contigs step fragLen < nExamples then
    .error .insufficientData
  else .ok (makePairs eligible step fragLen nExamples rngPos rngNeg)

lemma sampleFrag_sp (c : Contig) (step fragLen p : ℕ) :
    (sampleFrag c step fragLen p).sp = c.1 := rfl

lemma add_offset_mod_ne (i d n : ℕ) (hi : i < n) (hd : 0 < d) (hdn : d < n) :
    (i + d) % n ≠ i := by
  rcases Nat.lt_or_ge (i + d) n with h | h
  · rw [Nat.mod_eq_of_lt h]
    omega
  · have h2 : i + d - n < n := by omega
    rw [Nat.mod_eq_sub_mod h, Nat.mod_eq_of_lt h2]
    omega

/-- Distinct positions of a contig list with pairwise-distinct ids hold
contigs with distinct ids. -/
lemma getD_fst_ne_of_ne (contigs : List Contig)
    (hnodup : (contigs.map Prod.fst).Nodup) (i j : ℕ)
    (hi : i < contigs.length) (hj : j < contigs.length) (hne : i ≠ j) :
    (contigs.getD i (0, 0)).1 ≠ (contigs.getD j (0, 0)).1 := by
  rw [List.getD_eq_getElem _ _ hi, List.getD_eq_getElem _ _ hj]
  intro heq
  apply hne
  have hi2 : i < (contigs.map Prod.fst).length := by simpa using hi
  have hj2 : j < (contigs.map Prod.fst).length := by simpa using hj
  have hmap : (contigs.map Prod.fst).get ⟨i, hi2⟩ = (contigs.map Prod.fst).get ⟨j, hj2⟩ := by
    simp only [List.get_eq_getElem, List.getElem_map]
    exact heq
  rw [List.get_eq_getElem, List.get_eq_getElem] at hmap
  exact (hnodup.getElem_inj_iff).mp hmap

lemma posPairOf_same_sp (contigs : List Contig) (step fragLen : ℕ)
    (r : ℕ × ℕ × ℕ) :
    (posPairOf contigs step fragLen r).1.sp =
      (posPairOf contigs step fragLen r).2.sp := rfl

/-- Negative pairs always join two distinct contigs (distinct ids). -/
lemma negPairOf_distinct_sp (contigs : List Contig) (step fragLen : ℕ)
    (hnodup : (contigs.map Prod.fst).Nodup) (h2 : 2 ≤ contigs.length)
    (r : ℕ × ℕ × ℕ × ℕ) :
    (negPairOf contigs step fragLen r).1.sp ≠
      (negPairOf contigs step fragLen r).2.sp := by
  simp only [negPairOf, sampleFrag_sp]
  have hn : 0 < contigs.length := by omega
  have hi1 : r.1 % contigs.length < contigs.length := Nat.mod_lt _ hn
  have hdn : 1 + r.2.1 % (contigs.length - 1) < contigs.length := by
    have := Nat.mod_lt r.2.1 (show 0 < contigs.length - 1 by omega)
    omega
  have hne := add_offset_mod_ne (r.1 % contigs.length)
    (1 + r.2.1 % (contigs.length - 1)) contigs.length hi1 (by omega) hdn
  have hassoc : r.1 % contigs.length + (1 + r.2.1 % (contigs.length - 1)) =
      r.1 % contigs.length + 1 + r.2.1 % (contigs.length - 1) := by omega
  rw [hassoc] at hne
  have hlt : (r.1 % contigs.length + 1 + r.2.1 % (contigs.length - 1)) %
      contigs.length < contigs.length := Nat.mod_lt _ hn
  exact getD_fst_ne_of_ne contigs hnodup _ _ hi1 hlt (fun e => hne e.symm)

lemma countP_map_range_eq_k {α : Type} (k : ℕ) (f : ℕ → α) (p : α → Bool)
    (h : ∀ j, p (f j) = true) : ((List.range k).map f).countP p = k :=
  calc ((List.range k).map f).countP p = ((List.range k).map f).length :=
      List.countP_eq_length.mpr (by
        intro a ha
        rcases List.mem_map.mp ha with ⟨j, _, rfl⟩
        exact h j)
    _ = k := by simp

lemma countP_map_range_eq_zero {α : Type} (k : ℕ) (f : ℕ → α) (p : α → Bool)
    (h : ∀ j, p (f j) = false) : ((List.range k).map f).countP p = 0 :=
  List.countP_eq_zero.mpr (by
    intro a ha
    rcases List.mem_map.mp ha with ⟨j, _, rfl⟩
    simp [h j])

/-- C6: for an even requested count `n_examples = 2k` over contigs with
distinct ids (at least two of them), the sampler produces exactly `k`
positive pairs (both fragments from the same contig) and exactly `k`
negative pairs (fragments from two distinct contigs). -/
theorem makePairs_pos_neg_counts (contigs : List Contig)
    (step fragLen k : ℕ) (rngPos : ℕ → ℕ × ℕ × ℕ)
    (rngNeg : ℕ → ℕ × ℕ × ℕ × ℕ)
    (hnodup : (contigs.map Prod.fst).Nodup) (h2 : 2 ≤ contigs.length) :
    ((makePairs contigs step fragLen (2 * k) rngPos rngNeg).countP
      (fun pr => pr.1.sp == pr.2.sp)) = k ∧
    ((makePairs contigs step fragLen (2 * k) rngPos rngNeg).countP
      (fun pr => pr.1.sp != pr.2.sp)) = k := by
  have hkk : 2 * k / 2 = k := by omega
  rw [makePairs, hkk]
  simp only [List.countP_append]
  have hpos_same : ∀ j, ((fun pr : Frag × Frag => pr.1.sp == pr.2.sp)
      (posPairOf contigs step fragLen (rngPos j))) = true := by
    intro j
    simp only [beq_iff_eq]
    exact posPairOf_same_sp contigs step fragLen (rngPos j)
  have hneg_diff : ∀ j, ((fun pr : Frag × Frag => pr.1.sp == pr.2.sp)
      (negPairOf contigs step fragLen (rngNeg j))) = false := by
    intro j
    simp only [beq_eq_false_iff_ne, ne_eq]
    exact negPairOf_distinct_sp contigs step fragLen hnodup h2 (rngNeg j)
  have hpos_same2 : ∀ j, ((fun pr : Frag × Frag => pr.1.sp != pr.2.sp)
      (posPairOf contigs step fragLen (rngPos j))) = false := by
    intro j
    simp only [bne_eq_false_iff_eq, beq_iff_eq]
    exact posPairOf_same_sp contigs step fragLen (rngPos j)
  have hneg_diff2 : ∀ j, ((fun pr : Frag × Frag => pr.1.sp != pr.2.sp)
      (negPairOf contigs step fragLen (rngNeg j))) = true := by
    intro j
    simp only [bne_iff_ne, ne_eq]
    exact negPairOf_distinct_sp contigs step fragLen hnodup h2 (rngNeg j)
  constructor
  · rw [countP_map_range_eq_k k (fun j => posPairOf contigs step fragLen (rngPos j))
        (fun pr => pr.1.sp == pr.2.sp) hpos_same,
      countP_map_range_eq_zero k (fun j => negPairOf contigs step fragLen (rngNeg j))
        (fun pr => pr.1.sp == pr.2.sp) hneg_diff]
    omega
  · rw [countP_map_range_eq_zero k (fun j => posPairOf contigs step fragLen (rngPos j))
        (fun pr => pr.1.sp != pr.2.sp) hpos_same2,
      countP_map_range_eq_k k (fun j => negPairOf contigs step fragLen (rngNeg j))
        (fun pr => pr.1.sp != pr.2.sp) hneg_diff2]
    omega

/-- C6 witness: two contigs of length 10, `n_examples = 2·1`. -/
theorem makePairs_pos_neg_counts_witness :
    (([((0:ℕ), (10:ℕ)), (1, 10)].map Prod.fst).Nodup ∧
      2 ≤ [((0:ℕ), (10:ℕ)), (1, 10)].length) ∧
    ((makePairs [(0, 10), (1, 10)] 1 5 (2 * 1) (fun _ => (0, 0, 0))
      (fun _ => (0, 0, 0, 0))).countP (fun pr => pr.1.sp == pr.2.sp) = 1 ∧
    (makePairs [(0, 10), (1, 10)] 1 5 (2 * 1) (fun _ => (0, 0, 0))
      (fun _ => (0, 0, 0, 0))).countP (fun pr => pr.1.sp != pr.2.sp) = 1) :=
  ⟨⟨by decide, by decide⟩,
    makePairs_pos_neg_counts [(0, 10), (1, 10)] 1 5 1 (fun _ => (0, 0, 0))
      (fun _ => (0, 0, 0, 0)) (by decide) (by decide)⟩

/-- C9: the guarded sampler fails with `InsufficientDataError` exactly when
fewer than 2 eligible contigs exist or the requested count exceeds the
feasible pair count after deduplication. -/
theorem makePairsChecked_error_iff (contigs : List Contig)
    (step fragLen nExamples : ℕ) (rngPos : ℕ → ℕ × ℕ × ℕ)
    (rngNeg : ℕ → ℕ × ℕ × ℕ × ℕ) :
    makePairsChecked contigs step fragLen nExamples rngPos rngNeg =
      .error .insufficientData ↔
    ((eligibleContigs contigs fragLen).length < 2 ∨
      feasiblePairs contigs step fragLen < nExamples) := by
  rw [makePairsChecked]
  split_ifs with h1 h2
  · simp [h1]
  · simp [h1, h2]
  · simp [h1, h2]

/-- A neighbor graph: weighted edges `(u, v, vote_count)` (spec §6: the
persisted pre-graph artifact is an edge list `contig_u, contig_v, vote`). -/
abbrev Graph := List (ℕ × ℕ × ℕ)

/-- Modelled from the spec: artifact caching of the graph builder
(`coconet.clustering.make_pregraph`, not under `src/`): when a graph
artifact for the exact same inputs and parameters already exists and `force`
is false, the builder skips recomputation and returns the cached graph
unchanged; with `force = true` it always recomputes. -/
def runGraphBuilder {α : Type} (compute : α → Graph) (inputs : α)
    (cached : Option Graph) (force : Bool) : Graph :=
  match cached, force with
  | some g, false => g
  | _, _ => compute inputs

/-- C7: with a cached artifact and `force = false` the builder returns the
cache unchanged; with `force = true` it always recomputes; re-running with
`force = false` right after a recomputation on unchanged inputs returns a
graph identical to the cached one. -/
theorem runGraphBuilder_cache_spec {α : Type} (compute : α → Graph)
    (inputs : α) (g : Graph) :
    runGraphBuilder compute inputs (some g) false = g ∧
    (∀ cached, runGraphBuilder compute inputs cached true = compute inputs) ∧
    runGraphBuilder compute inputs (some (compute inputs)) false =
      compute inputs :=
  ⟨rfl, fun cached => by cases cached <;> rfl, rfl⟩

/-- Modelled from the spec: the pre-graph construction of the Neighbor Graph
Builder (`coconet.clustering.make_pregraph`, not under `src/`): for each
candidate pair `(u, v)` with `u ≠ v` (never a contig with itself), `n_frags`
fragment-pair scores are computed, the vote is the number of scores above the
0.5 decision threshold, and the edge `(u, v, vote)` is kept iff
`vote ≥ vote_threshold`. -/
def makePregraph (scorer : ℕ → ℕ → ℕ → ℚ) (candidates : List (ℕ × ℕ))
    (nFrags voteThreshold : ℕ) : Graph :=
  (candidates.filter (fun uv => decide (uv.1 ≠ uv.2))).filterMap (fun uv =>
    let votes := ((List.range nFrags).map (fun t => scorer uv.1 uv.2 t)).countP
      (fun p => decide ((1:ℚ)/2 < p))
    if voteThreshold ≤ votes then some (uv.1, uv.2, votes) else none)

/-- C8: every edge `(u, v, vote_count)` of the produced graph has `u ≠ v` and
`vote_threshold ≤ vote_count ≤ n_frags`: no self-loop and no out-of-range or
sub-threshold vote count ever appears. -/
theorem makePregraph_edge_invariants (scorer : ℕ → ℕ → ℕ → ℚ)
    (candidates : List (ℕ × ℕ)) (nFrags voteThreshold : ℕ) :
    ∀ e ∈ makePregraph scorer candidates nFrags voteThreshold,
      e.1 ≠ e.2.1 ∧ voteThreshold ≤ e.2.2 ∧ e.2.2 ≤ nFrags := by
  intro e he
  rw [makePregraph] at he
  rcases List.mem_filterMap.mp he with ⟨uv, huv, heq⟩
  have hne : uv.1 ≠ uv.2 := by
    have := List.of_mem_filter huv
    simpa using this
  simp only at heq
  split_ifs at heq with hth
  · rcases Option.some_injective _ heq with rfl
    refine ⟨hne, hth, ?_⟩
    calc ((List.range nFrags).map (fun t => scorer uv.1 uv.2 t)).countP
          (fun p => decide ((1:ℚ)/2 < p)) ≤
        ((List.range nFrags).map (fun t => scorer uv.1 uv.2 t)).length :=
        List.countP_le_length _
      _ = nFrags := by simp

/-- C8 witness: one candidate pair (0, 1) with `n_frags = 0`,
`vote_threshold = 0`: the graph is `[(0, 1, 0)]` and its single edge
satisfies the invariants. -/
theorem makePregraph_edge_invariants_witness :
    ((0, 1, 0) ∈ makePregraph (fun _ _ _ => 0) [(0, 1)] 0 0) ∧
    ((0:ℕ) ≠ 1 ∧ (0:ℕ) ≤ 0 ∧ (0:ℕ) ≤ 0) :=
  ⟨by decide,
    makePregraph_edge_invariants (fun _ _ _ => 0) [(0, 1)] 0 0 (0, 1, 0)
      (by decide)⟩

end CoCoNet
